import Mathlib

/- Verification of the AI pull-request review pipeline.

JavaScript strings are modelled as `List Char`; the functions below are
direct transcriptions of the string manipulation performed by the source
(`codeCleaner`, `aiClient`, `ReviewService`, `azdoClient`, `GitHubAdapter`).
Regex passes of the form `replace(/.../g, ...)` are transcribed as explicit
leftmost-first scans.  Recursions that are not structural in the source are
given an explicit fuel argument; the fuel supplied by each wrapper is
`length + 1`, which is sufficient because every iteration consumes at least
one character of the input, so the fuel base case is never reached.
-/

/-- The JavaScript whitespace class `\s` restricted to ASCII
(space, tab, newline, carriage return, vertical tab, form feed). -/
def jsWhitespace (c : Char) : Bool :=
  c = ' ' || c = '\t' || c = '\n' || c = '\r' || c = '\x0b' || c = '\x0c'

/-- JavaScript `String.prototype.trimEnd`. -/
def trimEndWs (l : List Char) : List Char :=
  (l.reverse.dropWhile jsWhitespace).reverse

/-- JavaScript `String.prototype.trim`. -/
def trimWs (l : List Char) : List Char :=
  ((l.dropWhile jsWhitespace).reverse.dropWhile jsWhitespace).reverse

/-- JavaScript `s.split('\n')`: always returns at least one (possibly empty) line. -/
def splitLines : List Char → List (List Char)
  | [] => [[]]
  | c :: rest =>
    match splitLines rest with
    | [] => [[]]
    | l :: ls => if c = '\n' then [] :: l :: ls else (c :: l) :: ls

/-- JavaScript `lines.join('\n')`. -/
def joinLines : List (List Char) → List Char
  | [] => []
  | [l] => l
  | l :: ls => l ++ '\n' :: joinLines ls

/-- Lower-cases a string character-wise, as `path.toLowerCase()` does for ASCII paths. -/
def lowerStr (s : List Char) : List Char := s.map Char.toLower

/-- `path.toLowerCase().endsWith(suffix)`. -/
def hasLowerSuffix (path suffix : List Char) : Bool :=
  suffix.isSuffixOf (lowerStr path)

/-- Splits `s` at the first occurrence of `needle` (assumed nonempty):
`splitFirst needle s = some (before, after)` with `s = before ++ needle ++ after`,
and `none` when `needle` does not occur in `s`. -/
def splitFirst (needle : List Char) : List Char → Option (List Char × List Char)
  | [] => none
  | c :: rest =>
    if needle.isPrefixOf (c :: rest) then some ([], (c :: rest).drop needle.length)
    else
      match splitFirst needle rest with
      | none => none
      | some (before, after) => some (c :: before, after)

/-- JavaScript `s.replace(/needle/g, "")` for a literal needle:
removes non-overlapping occurrences left to right. -/
def replaceAllGo (needle : List Char) : Nat → List Char → List Char
  | 0, s => s
  | fuel + 1, s =>
    match splitFirst needle s with
    | none => s
    | some (before, after) => before ++ replaceAllGo needle fuel after

def replaceAll (needle s : List Char) : List Char :=
  replaceAllGo needle (s.length + 1) s

/-- JavaScript `s.replace(/opn[\s\S]*?close/g, m => repl m)` for literal,
nonempty delimiters: repeatedly finds the leftmost `opn`, then the nearest
following `close` (lazy match), and replaces the whole delimited block
(including the delimiters) by `repl block`.  If the open delimiter has no
later close, the regex has no further match and the rest is kept verbatim. -/
def replaceBlocksGo (opn close : List Char) (repl : List Char → List Char) :
    Nat → List Char → List Char
  | 0, s => s
  | fuel + 1, s =>
    match splitFirst opn s with
    | none => s
    | some (before, afterOpen) =>
      match splitFirst close afterOpen with
      | none => s
      | some (middle, rest) =>
        before ++ repl (opn ++ middle ++ close) ++ replaceBlocksGo opn close repl fuel rest

def replaceBlocks (opn close : List Char) (repl : List Char → List Char)
    (s : List Char) : List Char :=
  replaceBlocksGo opn close repl (s.length + 1) s

/-- The comment-block passes shared by both cleaners: first `/* ... */`,
then, for paths ending in `.py` (case-insensitively), double and single
triple-quoted blocks, each block replaced by `repl block`. -/
def pyAwareBlockPasses (repl : List Char → List Char)
    (content path : List Char) : List Char :=
  let c1 := replaceBlocks "/*".data "*/".data repl content
  if hasLowerSuffix path ".py".data then
    let c2 := replaceBlocks "\"\"\"".data "\"\"\"".data repl c1
    replaceBlocks "\x27\x27\x27".data "\x27\x27\x27".data repl c2
  else c1

/-- The replacement used by the line-mapping cleaner: a matched block is
replaced by `'\n'.repeat(block.split('\n').length - 1)`, i.e. one newline per
newline contained in the block, so the overall line count is unchanged. -/
def newlinePreserving (m : List Char) : List Char :=
  List.replicate (m.count '\n') '\n'

/-- The filtering loop of the line-mapping cleaner, entered with `i = 0`:
for each line, `text = line.trimEnd()`; if `text.trim() !== ''` the line is
kept and its 1-based index `i + 1` is recorded. -/
def keepLines : List (List Char) → Nat → List (List Char) × List Nat
  | [], _ => ([], [])
  | l :: ls, i =>
    let text := trimEndWs l
    let (restLines, restMap) := keepLines ls (i + 1)
    if trimWs text = [] then (restLines, restMap)
    else (text :: restLines, (i + 1) :: restMap)

/-- Result of the line-mapping code cleaning (interface `CleanedCode`). -/
structure CleanedCode where
  cleanedContent : List Char
  lineMap : List Nat
deriving DecidableEq, Repr

/-- The intermediate text of the line-mapping cleaner: comment blocks
replaced by line-count-preserving runs of newlines. -/
def cleanIntermediate (content path : List Char) : List Char :=
  pyAwareBlockPasses newlinePreserving content path

/-- The line-mapping `cleanCodeContent(content, path)`:
replace block comments by newline runs, split into lines, drop blank lines
while recording, for each kept line, its 1-based original position. -/
def cleanCodeContentMapped (content path : List Char) : CleanedCode :=
  let intermediate := cleanIntermediate content path
  let lines := splitLines intermediate
  let (finalLines, lineMap) := keepLines lines 0
  ⟨joinLines finalLines, lineMap⟩

/-- Per-line `replace(/[ \t]+$/gm, '')`: strip trailing spaces and tabs
(only those two characters) from each line.  Line boundaries are taken at
`'\n'`, matching the `split('\n')` convention used elsewhere in the source. -/
def trimEndTabsSpaces (l : List Char) : List Char :=
  (l.reverse.dropWhile (fun c => c = ' ' || c = '\t')).reverse

/-- Index just past the last `'\n'` of `run` (meaningful when `run`
contains a newline). -/
def lastNewlineCut (run : List Char) : Nat :=
  run.length - run.reverse.findIdx (fun c => c = '\n')

/-- JavaScript `s.replace(/\n\s*\n\s*\n/g, "\n\n")`.  A match starts at a
newline whose maximal following whitespace run contains at least two more
newlines; with greedy backtracking the match extends through the last
newline of that run, and is replaced by two newlines. -/
def collapseNewlinesGo : Nat → List Char → List Char
  | 0, s => s
  | _ + 1, [] => []
  | fuel + 1, c :: rest =>
    if c = '\n' then
      let run := rest.takeWhile jsWhitespace
      if 2 ≤ run.count '\n' then
        '\n' :: '\n' :: collapseNewlinesGo fuel (rest.drop (lastNewlineCut run))
      else c :: collapseNewlinesGo fuel rest
    else c :: collapseNewlinesGo fuel rest

def collapseNewlines (s : List Char) : List Char :=
  collapseNewlinesGo (s.length + 1) s

/-- The string-returning `cleanCodeContent(content, path)` of
`codeCleaner.ts`: remove comment blocks, strip trailing spaces and tabs per
line, collapse triple newlines, and trim. -/
def cleanCodeContent (content path : List Char) : List Char :=
  let c1 := pyAwareBlockPasses (fun _ => []) content path
  let c2 := joinLines ((splitLines c1).map trimEndTabsSpaces)
  let c3 := collapseNewlines c2
  trimWs c3

/-- The line count `cleanedContent.split('\n').length` as computed by the
orchestrator on the output of the string cleaner. -/
def cleanedLineCount (content path : List Char) : Nat :=
  (splitLines (cleanCodeContent content path)).length

/-- Number of non-blank lines of a string (a line is blank when its
whitespace-trimmed content is empty). -/
def nonBlankLineCount (s : List Char) : Nat :=
  ((splitLines s).filter (fun l => !(trimWs l).isEmpty)).length


/- AI review client (`aiClient.ts`, multi-provider version).

The provider SDK call, `Math.random`, and `JSON.parse` are external
collaborators; they are passed in as oracles.  `call attempt` is the outcome
of the provider invocation made on the given attempt number (`.ok none`
models a null response, `.ok (some raw)` a text response, `.error e` a
thrown error).  `jitterOf attempt` models `Math.floor(Math.random() * 1000)`
drawn on that attempt.  `parse s` models `JSON.parse(s)` followed by the
`parsed.reviews` field access: `.error ()` models a parse exception, and
`.ok r` a successful parse whose `reviews` field is `r` (with `none` when
the field is absent, in which case `parsed.reviews || []` yields `[]`). -/

/-- A review entry as consumed by the orchestrator (fields of the parsed
AI response used by `ReviewService`). -/
structure AIReviewComment where
  startLine : Option Int
  endLine : Option Int
  severity : String
  comment : String
deriving DecidableEq, Repr

/-- The fields of a thrown JavaScript error inspected by `reviewWithAI`. -/
structure JsError where
  status : Option Int
  statusCode : Option Int
  message : Option String
deriving DecidableEq, Repr

/-- `needle` occurs as a substring (JavaScript `String.prototype.includes`). -/
def containsSubstr (s needle : List Char) : Bool :=
  (splitFirst needle s).isSome

/-- The rate-limit test of `aiClient.ts`:
`err.status === 429 || err.statusCode === 429 || (err.message && err.message.includes("429"))`.
A falsy (absent or empty) message fails the truthiness guard. -/
def isRateLimitErr (e : JsError) : Bool :=
  e.status = some 429 || e.statusCode = some 429 ||
    (match e.message with
     | some m => !(m = "") && containsSubstr m.data "429".data
     | none => false)

/-- Fence stripping before JSON parsing:
`rawResponse.replace(/```json/g, "").replace(/```/g, "").trim()`. -/
def stripCodeFences (raw : List Char) : List Char :=
  trimWs (replaceAll "```".data (replaceAll "```json".data raw))

/-- One invocation of `reviewWithAI`, returning the final outcome together
with the number of provider calls made and the list of waits (in
milliseconds) performed before each retry.  The recursion is fuelled; retry
requires `attempt <= 3` and each retry increases `attempt`, so from any
starting attempt at most three retries occur and fuel `3` is never
exhausted. -/
def reviewWithAIGo (call : Nat → Except JsError (Option String))
    (jitterOf : Nat → Nat)
    (parse : List Char → Except Unit (Option (List AIReviewComment))) :
    Nat → Nat → Except JsError (List AIReviewComment) × Nat × List Nat
  | fuel, attempt =>
    match call attempt with
    | .ok none => (.ok [], 1, [])
    | .ok (some raw) =>
      match parse (stripCodeFences raw.data) with
      | .ok reviewsField => (.ok (reviewsField.getD []), 1, [])
      | .error _ => (.ok [], 1, [])
    | .error e =>
      match fuel with
      | 0 => (.error e, 1, [])
      | fuel' + 1 =>
        if isRateLimitErr e ∧ attempt ≤ 3 then
          let wait := attempt * 2000 + jitterOf attempt
          let (res, calls, waits) := reviewWithAIGo call jitterOf parse fuel' (attempt + 1)
          (res, calls + 1, wait :: waits)
        else (.error e, 1, [])

/-- `reviewWithAI(fileName, content, customGuidelines, attempt)` viewed
through its observable outcome: result, provider-call count, retry waits. -/
def reviewWithAI (call : Nat → Except JsError (Option String))
    (jitterOf : Nat → Nat)
    (parse : List Char → Except Unit (Option (List AIReviewComment)))
    (attempt : Nat) : Except JsError (List AIReviewComment) × Nat × List Nat :=
  reviewWithAIGo call jitterOf parse 3 attempt

/- Comment posting adapters. -/

/-- The thread anchoring produced by the Azure DevOps `postReview`. -/
inductive AzdoThreadContext where
  | noContext
  | fileOnly (filePath : String)
  | ranged (filePath : String) (startL endL : Int)
deriving DecidableEq, Repr

/-- `startLine && startLine < endLine ? startLine : endLine` (0 is falsy). -/
def azdoActualStartLine (startLine : Option Int) (e : Int) : Int :=
  match startLine with
  | some s => if s ≠ 0 ∧ s < e then s else e
  | none => e

/-- The `threadContext` constructed by `postReview` in `azdoClient.ts`:
with a truthy file path and truthy end line, a ranged context anchored at
`actualStartLine..endLine`; with only a truthy file path, a file-level
context; otherwise no context. -/
def postReviewThreadContext (filePath : Option String)
    (startLine endLine : Option Int) : AzdoThreadContext :=
  match filePath with
  | none => .noContext
  | some fp =>
    if fp = "" then .noContext
    else
      match endLine with
      | some e =>
        if e ≠ 0 then .ranged fp (azdoActualStartLine startLine e) e
        else .fileOnly fp
      | none => .fileOnly fp

/-- The primary request built by `GitHubAdapter.postComment`: a line-anchored
review comment when `endLine && endLine > 0`, else a file-level issue
comment.  (The 422 fallback replaces a failed line-anchored request by a
file-level comment and is not modelled; it only ever lowers a line-anchored
comment to a file-level one.) -/
inductive GhPrimaryComment where
  | fileLevel (path : String)
  | lineReview (path : String) (line : Int) (startLine : Option Int)
deriving DecidableEq, Repr

def postCommentPrimary (path : String)
    (startLine endLine : Option Int) : GhPrimaryComment :=
  match endLine with
  | some e =>
    if e ≠ 0 ∧ e > 0 then
      .lineReview path e
        (match startLine with
         | some s => if s ≠ 0 ∧ s < e then some s else none
         | none => none)
    else .fileLevel path
  | none => .fileLevel path

/- Review orchestrator (`ReviewService.executeReview`).

The platform adapter and the per-file AI review are external collaborators
(network-bound); they are modelled as oracles inside `OrchEnv`.  Fallible
operations return `Except String`; `.error` models a thrown exception.
`executeReview` returns the observable effects of a run: whether the lock
and the file listing were attempted, which files were sent to the AI, the
collected candidate comments, the comments posted, and the final status. -/

/-- One changed file (`FileChange`). -/
structure FileChange where
  path : String
  commitId : String
deriving DecidableEq, Repr

/-- A candidate review comment collected by the orchestrator
(the element type of `allComments`). -/
structure CandidateComment where
  filePath : String
  startLine : Option Int
  endLine : Option Int
  severity : String
  comment : String
deriving DecidableEq, Repr

/-- Final review status (`ReviewStatus`). -/
inductive ReviewStatus where
  | approved
  | commented
  | changes_requested
deriving DecidableEq, Repr

/-- The external collaborators consumed by one run of `executeReview`. -/
structure OrchEnv where
  validateWebhook : Bool
  shouldProcessPR : Bool
  lockPR : Except String Unit
  changedFiles : List FileChange
  guidelinesPath : Option String
  getFileContent : String → String → Except String String
  reviewFile : String → String → Option String → Except String (List AIReviewComment)
  shouldIgnoreFile : String → Bool

/-- Observable effects of one run. -/
structure RunEffects where
  lockAttempted : Bool
  fetchedFiles : Bool
  aiCalls : List String
  candidates : List CandidateComment
  postedComments : List CandidateComment
  finalStatus : Option ReviewStatus
deriving DecidableEq, Repr

/-- The effects of a run that exits before locking: nothing happened. -/
def noEffects : RunEffects :=
  ⟨false, false, [], [], [], none⟩

/-- `SEVERITY_PRIORITY[s] ?? 3`. -/
def severityPriority (s : String) : Nat :=
  if s = "critical" then 0
  else if s = "major" then 1
  else if s = "minor" then 2
  else 3

/-- The comparison under which the orchestrator sorts candidate comments.
The JavaScript `allComments.sort((a, b) => pri(a) - pri(b))` is a stable
sort consistent with this total preorder (`Array.prototype.sort` is
specified to be stable). -/
def severityLe (a b : CandidateComment) : Bool :=
  severityPriority a.severity ≤ severityPriority b.severity

/-- The stable severity sort applied to the collected comments. -/
def sortComments (cs : List CandidateComment) : List CandidateComment :=
  cs.mergeSort severityLe

/-- `MAX_REVIEW_COMMENTS`. -/
def maxReviewComments : Nat := 15

/-- The synthesized oversized-file comment. -/
def redFlagComment (path : String) : CandidateComment :=
  { filePath := path, startLine := none, endLine := none,
    severity := "critical",
    comment := "🔴 **Architectural Red Flag**: This file exceeds 1000 lines." }

/-- Loop state of the per-file loop: the two aggregate flags, the collected
comments, and (for observability) the files sent to the AI. -/
structure LoopState where
  hasRedFlags : Bool
  hasIssues : Bool
  comments : List CandidateComment
  aiCalls : List String
deriving DecidableEq, Repr

def LoopState.start : LoopState := ⟨false, false, [], []⟩

/-- Guidelines fetching: when `env.AI_REVIEW_GUIDELINES` is configured, the
file is fetched at the commit of the first changed file; a thrown error is
caught and leaves the guidelines null. -/
def fetchGuidelines (e : OrchEnv) : Option String :=
  match e.guidelinesPath with
  | none => none
  | some p =>
    match e.changedFiles with
    | [] => none
    | f :: _ =>
      match e.getFileContent p f.commitId with
      | .error _ => none
      | .ok g => some g

/-- One iteration of the per-file loop.  Ignored files are skipped; a
thrown fetch or review error is caught (per-file boundary) and contributes
nothing; an oversized non-Markdown file gets the synthetic red-flag comment
and no AI call; otherwise the AI is invoked and its comments collected. -/
def processFile (e : OrchEnv) (guidelines : Option String)
    (st : LoopState) (f : FileChange) : LoopState :=
  if e.shouldIgnoreFile f.path then st
  else
    match e.getFileContent f.path f.commitId with
    | .error _ => st
    | .ok content =>
      let count := cleanedLineCount content.data f.path.data
      let isMarkdown := hasLowerSuffix f.path.data ".md".data
      if count > 1000 && !isMarkdown then
        { st with hasRedFlags := true,
                  comments := st.comments ++ [redFlagComment f.path] }
      else
        match e.reviewFile f.path content guidelines with
        | .error _ => { st with aiCalls := st.aiCalls ++ [f.path] }
        | .ok revs =>
          if revs.length > 0 then
            { st with hasIssues := true,
                      aiCalls := st.aiCalls ++ [f.path],
                      comments := st.comments ++ revs.map (fun r =>
                        { filePath := f.path, startLine := r.startLine,
                          endLine := r.endLine, severity := r.severity,
                          comment := r.comment }) }
          else { st with aiCalls := st.aiCalls ++ [f.path] }

/-- `executeReview`: validation and eligibility may exit early with no side
effects; then lock (best effort), list files (empty list exits without a
final status), fetch guidelines, run the per-file loop, stable-sort the
collected comments by severity, post the top `maxReviewComments`, and set
the final status. -/
def executeReview (e : OrchEnv) : RunEffects :=
  if !e.validateWebhook then noEffects
  else if !e.shouldProcessPR then noEffects
  else
    let files := e.changedFiles
    if files.isEmpty then
      { lockAttempted := true, fetchedFiles := true, aiCalls := [],
        candidates := [], postedComments := [], finalStatus := none }
    else
      let guidelines := fetchGuidelines e
      let st := files.foldl (processFile e guidelines) LoopState.start
      let topComments := (sortComments st.comments).take maxReviewComments
      let status : ReviewStatus :=
        if st.hasRedFlags then .changes_requested
        else if st.hasIssues then .commented
        else .approved
      { lockAttempted := true, fetchedFiles := true, aiCalls := st.aiCalls,
        candidates := st.comments, postedComments := topComments,
        finalStatus := some status }

/- Compositional reformulation of the per-file loop, used by the theorems:
per-file contribution functions whose concatenation describes the loop. -/

/-- The red-flag condition for one file: not ignored, content fetched, line
count of the cleaned content above 1000, and not Markdown. -/
def fileRedFlagged (e : OrchEnv) (f : FileChange) : Bool :=
  !e.shouldIgnoreFile f.path &&
    (match e.getFileContent f.path f.commitId with
     | .error _ => false
     | .ok content =>
       cleanedLineCount content.data f.path.data > 1000 &&
         !hasLowerSuffix f.path.data ".md".data)

/-- Whether the AI review of one file succeeded with at least one comment. -/
def fileHasAIIssues (e : OrchEnv) (guidelines : Option String)
    (f : FileChange) : Bool :=
  !e.shouldIgnoreFile f.path &&
    (match e.getFileContent f.path f.commitId with
     | .error _ => false
     | .ok content =>
       !(cleanedLineCount content.data f.path.data > 1000 &&
           !hasLowerSuffix f.path.data ".md".data) &&
         (match e.reviewFile f.path content guidelines with
          | .error _ => false
          | .ok revs => revs.length > 0))

/-- The candidate comments contributed by one file. -/
def fileContrib (e : OrchEnv) (guidelines : Option String)
    (f : FileChange) : List CandidateComment :=
  if e.shouldIgnoreFile f.path then []
  else
    match e.getFileContent f.path f.commitId with
    | .error _ => []
    | .ok content =>
      if cleanedLineCount content.data f.path.data > 1000 &&
          !hasLowerSuffix f.path.data ".md".data then
        [redFlagComment f.path]
      else
        match e.reviewFile f.path content guidelines with
        | .error _ => []
        | .ok revs => revs.map (fun r =>
            { filePath := f.path, startLine := r.startLine,
              endLine := r.endLine, severity := r.severity,
              comment := r.comment })

/-- The AI invocation made for one file, if any. -/
def fileAICall (e : OrchEnv) (f : FileChange) : Option String :=
  if e.shouldIgnoreFile f.path then none
  else
    match e.getFileContent f.path f.commitId with
    | .error _ => none
    | .ok content =>
      if cleanedLineCount content.data f.path.data > 1000 &&
          !hasLowerSuffix f.path.data ".md".data then none
      else some f.path

/-- A family of concrete contents used to exercise the oversized-file
branch: `aLines n` is `n + 1` lines each holding the single character a. -/
def aLines : Nat → List Char
  | 0 => ['a']
  | n + 1 => 'a' :: '\n' :: aLines n

/- Helper lemmas. -/

theorem foldl_processFile_eq (e : OrchEnv) (g : Option String)
    (files : List FileChange) : ∀ st : LoopState,
    files.foldl (processFile e g) st =
      ⟨st.hasRedFlags || files.any (fileRedFlagged e),
       st.hasIssues || files.any (fileHasAIIssues e g),
       st.comments ++ files.flatMap (fileContrib e g),
       st.aiCalls ++ files.filterMap (fileAICall e)⟩ := by
  induction files with
  | nil => intro st; simp
  | cons f fs ih =>
    intro st
    rw [List.foldl_cons, ih]
    simp only [List.any_cons, List.flatMap_cons, List.filterMap_cons]
    unfold processFile fileRedFlagged fileHasAIIssues fileContrib fileAICall
    by_cases hig : e.shouldIgnoreFile f.path
    · simp [hig]
    · simp only [hig, Bool.false_eq_true, if_false, Bool.not_false, Bool.true_and]
      cases hfc : e.getFileContent f.path f.commitId with
      | error err => simp
      | ok content =>
        by_cases hbig : (cleanedLineCount content.data f.path.data > 1000 &&
            !hasLowerSuffix f.path.data ".md".data) = true
        · simp [hbig, Bool.or_assoc]
        · simp only [hbig, Bool.false_eq_true, if_false, Bool.not_false, Bool.true_and]
          cases hr : e.reviewFile f.path content g with
          | error err => simp
          | ok revs =>
            by_cases hlen : revs.length > 0
            · simp [hlen, Bool.or_assoc]
            · have hnil : revs = [] := by
                cases revs with
                | nil => rfl
                | cons a as => simp at hlen
              subst hnil
              simp

theorem severityLe_trans (a b c : CandidateComment) :
    severityLe a b → severityLe b c → severityLe a c := by
  simp only [severityLe, decide_eq_true_eq]
  omega

theorem severityLe_total (a b : CandidateComment) :
    severityLe a b || severityLe b a := by
  simp only [severityLe, Bool.or_eq_true, decide_eq_true_eq]
  omega

/-- The stable severity sort is a permutation of its input. -/
theorem sortComments_perm (cs : List CandidateComment) :
    List.Perm (sortComments cs) cs :=
  List.mergeSort_perm cs severityLe

/-- The stable severity sort produces a severity-sorted list. -/
theorem sortComments_sorted (cs : List CandidateComment) :
    (sortComments cs).Pairwise (fun a b => severityLe a b) :=
  List.sorted_mergeSort severityLe_trans severityLe_total cs

/-- Stability: within each priority class, the sort preserves the original
relative order (the subsequence of comments of any fixed priority is
unchanged). -/
theorem sortComments_filter_priority (cs : List CandidateComment) (k : Nat) :
    (sortComments cs).filter (fun c => severityPriority c.severity == k) =
      cs.filter (fun c => severityPriority c.severity == k) := by
  set p : CandidateComment → Bool := fun c => severityPriority c.severity == k with hp
  have hall : ∀ x ∈ cs.filter p, ∀ y ∈ cs.filter p, severityLe x y := by
    intro x hx y hy
    have hxk : severityPriority x.severity = k := by
      have := (List.mem_filter.mp hx).2
      simpa [hp] using this
    have hyk : severityPriority y.severity = k := by
      have := (List.mem_filter.mp hy).2
      simpa [hp] using this
    simp [severityLe, hxk, hyk]
  have hpw : (cs.filter p).Pairwise (fun a b => severityLe a b) :=
    List.pairwise_of_forall_mem_list hall
  have hsub : List.Sublist (cs.filter p) (sortComments cs) :=
    List.sublist_mergeSort severityLe_trans severityLe_total hpw
      (List.filter_sublist cs)
  have hsub2 : List.Sublist (cs.filter p) ((sortComments cs).filter p) := by
    have h1 := hsub.filter p
    rwa [List.filter_eq_self.mpr (fun a ha => (List.mem_filter.mp ha).2)] at h1
  have hlen : ((sortComments cs).filter p).length = (cs.filter p).length :=
    ((sortComments_perm cs).filter p).length_eq
  exact (hsub2.eq_of_length hlen.symm).symm

theorem splitFirst_eq (needle : List Char) :
    ∀ s before after, splitFirst needle s = some (before, after) →
      s = before ++ needle ++ after := by
  intro s
  induction s with
  | nil => intro b a h; simp [splitFirst] at h
  | cons c rest ih =>
    intro b a h
    rw [splitFirst] at h
    by_cases hp : needle.isPrefixOf (c :: rest)
    · simp only [hp, if_true, Option.some.injEq, Prod.mk.injEq] at h
      obtain ⟨hb, ha⟩ := h
      subst hb
      subst ha
      obtain ⟨t, ht⟩ := List.isPrefixOf_iff_prefix.mp hp
      rw [← ht]
      simp [List.drop_left]
    · simp only [hp, if_false, Bool.false_eq_true] at h
      cases hsf : splitFirst needle rest with
      | none => rw [hsf] at h; simp at h
      | some pr =>
        obtain ⟨b', a'⟩ := pr
        rw [hsf] at h
        simp only [Option.some.injEq, Prod.mk.injEq] at h
        obtain ⟨hb, ha⟩ := h
        subst hb
        subst ha
        have := ih b' a' hsf
        simp [this]

theorem count_newlinePreserving (m : List Char) :
    (newlinePreserving m).count '\n' = m.count '\n' := by
  simp [newlinePreserving, List.count_replicate]

theorem count_nl_replaceBlocksGo (opn close : List Char) :
    ∀ fuel s,
      ((replaceBlocksGo opn close newlinePreserving fuel s).count '\n') =
        s.count '\n' := by
  intro fuel
  induction fuel with
  | zero => intro s; rfl
  | succ n ih =>
    intro s
    cases h1 : splitFirst opn s with
    | none => simp [replaceBlocksGo, h1]
    | some pr1 =>
      obtain ⟨before, afterOpen⟩ := pr1
      cases h2 : splitFirst close afterOpen with
      | none => simp [replaceBlocksGo, h1, h2]
      | some pr2 =>
        obtain ⟨middle, rest⟩ := pr2
        have e1 := splitFirst_eq opn s before afterOpen h1
        have e2 := splitFirst_eq close afterOpen middle rest h2
        simp only [replaceBlocksGo, h1, h2]
        rw [e1, e2]
        simp only [List.count_append, count_newlinePreserving, ih]
        ring

theorem count_nl_cleanIntermediate (content path : List Char) :
    (cleanIntermediate content path).count '\n' = content.count '\n' := by
  unfold cleanIntermediate pyAwareBlockPasses replaceBlocks
  by_cases hpy : hasLowerSuffix path ".py".data
  · simp only [hpy, if_true]
    rw [count_nl_replaceBlocksGo, count_nl_replaceBlocksGo, count_nl_replaceBlocksGo]
  · simp only [hpy, Bool.false_eq_true, if_false]
    rw [count_nl_replaceBlocksGo]

theorem splitLines_ne_nil (s : List Char) : splitLines s ≠ [] := by
  cases s with
  | nil => simp [splitLines]
  | cons c rest =>
    rw [splitLines]
    cases splitLines rest with
    | nil => simp
    | cons l ls =>
      by_cases h : c = '\n' <;> simp [h]

theorem splitLines_length (s : List Char) :
    (splitLines s).length = s.count '\n' + 1 := by
  induction s with
  | nil => rfl
  | cons c rest ih =>
    rw [splitLines]
    cases hsl : splitLines rest with
    | nil => exact absurd hsl (splitLines_ne_nil rest)
    | cons l ls =>
      have hlen : (l :: ls).length = rest.count '\n' + 1 := by rw [← hsl]; exact ih
      simp only [List.length_cons] at hlen
      by_cases h : c = '\n'
      · subst h
        simp only [if_true, List.length_cons, List.count_cons_self]
        omega
      · simp only [h, if_false, List.length_cons]
        rw [List.count_cons_of_ne (fun hc => h hc.symm)]
        omega

theorem keepLines_length :
    ∀ (ls : List (List Char)) (i : Nat),
      ((keepLines ls i).1).length = ((keepLines ls i).2).length := by
  intro ls
  induction ls with
  | nil => intro i; rfl
  | cons l rest ih =>
    intro i
    rw [keepLines]
    by_cases h : trimWs (trimEndWs l) = []
    · simp only [h, if_true]
      exact ih (i + 1)
    · simp only [h, if_false, List.length_cons]
      rw [ih (i + 1)]

theorem keepLines_mem_bounds :
    ∀ (ls : List (List Char)) (i j : Nat), j ∈ (keepLines ls i).2 →
      i + 1 ≤ j ∧ j ≤ i + ls.length := by
  intro ls
  induction ls with
  | nil => intro i j h; simp [keepLines] at h
  | cons l rest ih =>
    intro i j h
    rw [keepLines] at h
    by_cases hb : trimWs (trimEndWs l) = []
    · simp only [hb, if_true] at h
      have := ih (i + 1) j h
      simp only [List.length_cons]
      omega
    · simp only [hb, if_false, List.mem_cons] at h
      cases h with
      | inl he => simp only [List.length_cons]; omega
      | inr hm =>
        have := ih (i + 1) j hm
        simp only [List.length_cons]
        omega

theorem keepLines_sorted :
    ∀ (ls : List (List Char)) (i : Nat),
      ((keepLines ls i).2).Pairwise (· < ·) := by
  intro ls
  induction ls with
  | nil => intro i; simp [keepLines]
  | cons l rest ih =>
    intro i
    rw [keepLines]
    by_cases hb : trimWs (trimEndWs l) = []
    · simp only [hb, if_true]
      exact ih (i + 1)
    · simp only [hb, if_false]
      refine List.Pairwise.cons ?_ (ih (i + 1))
      intro j hj
      have := keepLines_mem_bounds rest (i + 1) j hj
      omega

theorem keepLines_get :
    ∀ (ls : List (List Char)) (i k j : Nat),
      ((keepLines ls i).2)[k]? = some j →
      ∃ l, ls[j - (i + 1)]? = some l ∧
        ((keepLines ls i).1)[k]? = some (trimEndWs l) ∧
        trimWs (trimEndWs l) ≠ [] := by
  intro ls
  induction ls with
  | nil => intro i k j h; simp [keepLines] at h
  | cons l rest ih =>
    intro i k j h
    rw [keepLines] at h
    rw [keepLines]
    by_cases hb : trimWs (trimEndWs l) = []
    · simp only [hb, if_true] at h ⊢
      obtain ⟨l', hl', hk', hnb⟩ := ih (i + 1) k j h
      have hbnd := keepLines_mem_bounds rest (i + 1) j
        (by
          have : ((keepLines rest (i + 1)).2)[k]? = some j := h
          exact List.getElem?_mem this)
      refine ⟨l', ?_, hk', hnb⟩
      have hge : i + 2 ≤ j := hbnd.1
      have : j - (i + 1) = (j - (i + 2)) + 1 := by omega
      rw [this]
      simpa using hl'
    · simp only [hb, if_false] at h ⊢
      cases k with
      | zero =>
        simp only [List.getElem?_cons_zero, Option.some.injEq] at h
        subst h
        refine ⟨l, ?_, ?_, hb⟩
        · simp
        · simp
      | succ k' =>
        simp only [List.getElem?_cons_succ] at h
        obtain ⟨l', hl', hk', hnb⟩ := ih (i + 1) k' j h
        have hbnd := keepLines_mem_bounds rest (i + 1) j
          (List.getElem?_mem h)
        refine ⟨l', ?_, ?_, hnb⟩
        · have hge : i + 2 ≤ j := hbnd.1
          have : j - (i + 1) = (j - (i + 2)) + 1 := by omega
          rw [this]
          simpa using hl'
        · simpa using hk'

theorem keepLines_fst_nonblank :
    ∀ (ls : List (List Char)) (i : Nat) (t : List Char),
      t ∈ (keepLines ls i).1 → trimWs t ≠ [] := by
  intro ls
  induction ls with
  | nil => intro i t h; simp [keepLines] at h
  | cons l rest ih =>
    intro i t h
    rw [keepLines] at h
    by_cases hb : trimWs (trimEndWs l) = []
    · simp only [hb, if_true] at h
      exact ih (i + 1) t h
    · simp only [hb, if_false, List.mem_cons] at h
      cases h with
      | inl he => subst he; exact hb
      | inr hm => exact ih (i + 1) t hm

theorem mem_trimEndWs (l : List Char) (a : Char) :
    a ∈ trimEndWs l → a ∈ l := by
  intro h
  unfold trimEndWs at h
  rw [List.mem_reverse] at h
  have := (List.dropWhile_sublist jsWhitespace (l := l.reverse)).mem h
  rwa [List.mem_reverse] at this

theorem mem_splitLines_no_nl :
    ∀ (s : List Char) (l : List Char), l ∈ splitLines s → '\n' ∉ l := by
  intro s
  induction s with
  | nil => intro l h; simp [splitLines] at h; simp [h]
  | cons c rest ih =>
    intro l h
    rw [splitLines] at h
    cases hsl : splitLines rest with
    | nil => exact absurd hsl (splitLines_ne_nil rest)
    | cons m ms =>
      rw [hsl] at h
      by_cases hc : c = '\n'
      · simp only [hc, if_true, List.mem_cons] at h
        rcases h with h | h | h
        · simp [h]
        · exact ih l (by rw [hsl]; simp [h])
        · exact ih l (by rw [hsl]; simp [h])
      · simp only [hc, if_false, List.mem_cons] at h
        rcases h with h | h
        · subst h
          intro hmem
          rcases List.mem_cons.mp hmem with h | h
          · exact hc h.symm
          · exact ih m (by rw [hsl]; simp) h
        · exact ih l (by rw [hsl]; simp [h])

theorem splitLines_no_nl (l : List Char) (h : '\n' ∉ l) :
    splitLines l = [l] := by
  induction l with
  | nil => rfl
  | cons c rest ih =>
    have hc : c ≠ '\n' := fun hc => h (by simp [hc])
    have hrest : '\n' ∉ rest := fun hm => h (by simp [hm])
    rw [splitLines, ih hrest]
    simp [hc]

theorem splitLines_append_nl (l t : List Char) (h : '\n' ∉ l) :
    splitLines (l ++ '\n' :: t) = l :: splitLines t := by
  induction l with
  | nil =>
    simp only [List.nil_append]
    rw [splitLines]
    cases hsl : splitLines t with
    | nil => exact absurd hsl (splitLines_ne_nil t)
    | cons m ms => simp
  | cons c rest ih =>
    have hc : c ≠ '\n' := fun hc => h (by simp [hc])
    have hrest : '\n' ∉ rest := fun hm => h (by simp [hm])
    simp only [List.cons_append]
    rw [splitLines, ih hrest]
    simp [hc]

theorem splitLines_joinLines :
    ∀ (L : List (List Char)), L ≠ [] → (∀ l ∈ L, '\n' ∉ l) →
      splitLines (joinLines L) = L := by
  intro L
  induction L with
  | nil => intro h; exact absurd rfl h
  | cons l rest ih =>
    intro _ hno
    cases rest with
    | nil =>
      rw [joinLines]
      exact splitLines_no_nl l (hno l (by simp))
    | cons m ms =>
      have hj : joinLines (l :: m :: ms) = l ++ '\n' :: joinLines (m :: ms) := rfl
      rw [hj, splitLines_append_nl l (joinLines (m :: ms)) (hno l (by simp))]
      rw [ih (List.cons_ne_nil m ms) (fun x hx => hno x (by simp [hx]))]

theorem keepLines_fst_no_nl :
    ∀ (ls : List (List Char)) (i : Nat), (∀ l ∈ ls, '\n' ∉ l) →
      ∀ t ∈ (keepLines ls i).1, '\n' ∉ t := by
  intro ls
  induction ls with
  | nil => intro i _ t h; simp [keepLines] at h
  | cons l rest ih =>
    intro i hno t h
    rw [keepLines] at h
    by_cases hb : trimWs (trimEndWs l) = []
    · simp only [hb, if_true] at h
      exact ih (i + 1) (fun x hx => hno x (by simp [hx])) t h
    · simp only [hb, if_false, List.mem_cons] at h
      cases h with
      | inl he =>
        subst he
        intro hmem
        exact hno l (by simp) (mem_trimEndWs l '\n' hmem)
      | inr hm => exact ih (i + 1) (fun x hx => hno x (by simp [hx])) t hm

theorem cleanCodeContentMapped_eq (content path : List Char) :
    cleanCodeContentMapped content path =
      ⟨joinLines (keepLines (splitLines (cleanIntermediate content path)) 0).1,
       (keepLines (splitLines (cleanIntermediate content path)) 0).2⟩ := rfl

/-- Claim C1: in the line-mapping `cleanCodeContent`, `lineMap[i-1]` is the
1-based position, in the unmodified original content, of cleaned line `i`:
the comment-replacement pass preserves the line count (so line numbering of
the intermediate text coincides with the original), `lineMap` is strictly
increasing and within the bounds of the original line count, cleaned line
`k` (0-based) is the trailing-whitespace-trimmed text of line `lineMap[k]`
of the intermediate and is non-blank; and on the input
`"a\n/*\nb\nc\n*/\nd"` the result is exactly `cleanedContent = "a\nd"` with
`lineMap = [1, 6]`. -/
theorem cleanCodeContentMapped_lineMap_correct (content path : List Char) :
    ((splitLines (cleanIntermediate content path)).length =
        (splitLines content).length) ∧
    ((cleanCodeContentMapped content path).lineMap).Pairwise (· < ·) ∧
    (∀ j ∈ (cleanCodeContentMapped content path).lineMap,
        1 ≤ j ∧ j ≤ (splitLines content).length) ∧
    (∀ (k j : Nat), ((cleanCodeContentMapped content path).lineMap)[k]? = some j →
        ∃ l, (splitLines (cleanIntermediate content path))[j - 1]? = some l ∧
          (splitLines ((cleanCodeContentMapped content path).cleanedContent))[k]? =
            some (trimEndWs l) ∧
          trimWs (trimEndWs l) ≠ []) ∧
    cleanCodeContentMapped "a\n/*\nb\nc\n*/\nd".data "x.ts".data =
      ⟨"a\nd".data, [1, 6]⟩ := by
  have hlen : (splitLines (cleanIntermediate content path)).length =
      (splitLines content).length := by
    rw [splitLines_length, splitLines_length, count_nl_cleanIntermediate]
  refine ⟨hlen, ?_, ?_, ?_, by decide⟩
  · rw [cleanCodeContentMapped_eq]
    exact keepLines_sorted _ 0
  · intro j hj
    rw [cleanCodeContentMapped_eq] at hj
    have := keepLines_mem_bounds _ 0 j hj
    omega
  · intro k j hj
    rw [cleanCodeContentMapped_eq] at hj ⊢
    obtain ⟨l, hl, hk, hnb⟩ := keepLines_get _ 0 k j hj
    have hbnd := keepLines_mem_bounds _ 0 j (List.getElem?_mem hj)
    refine ⟨l, ?_, ?_, hnb⟩
    · simpa using hl
    · have hne : (keepLines (splitLines (cleanIntermediate content path)) 0).1 ≠ [] := by
        intro hnil
        rw [hnil] at hk
        simp at hk
      have hnonl : ∀ t ∈ (keepLines (splitLines (cleanIntermediate content path)) 0).1,
          '\n' ∉ t :=
        keepLines_fst_no_nl _ 0 (fun l hl => mem_splitLines_no_nl _ l hl)
      rw [splitLines_joinLines _ hne hnonl]
      exact hk

/-- Claim C7 (amended): whenever the line-mapping cleaner keeps at least one
line (`lineMap` nonempty), the cleaned content contains no blank lines and
`cleanedContent.split('\n').length` equals `lineMap.length`.  (When no line
is kept, the cleaned content is the empty string, which still splits into
one blank line while `lineMap` is empty.) -/
theorem cleanCodeContentMapped_no_blank_lines (content path : List Char)
    (h : (cleanCodeContentMapped content path).lineMap ≠ []) :
    (∀ l ∈ splitLines ((cleanCodeContentMapped content path).cleanedContent),
        trimWs l ≠ []) ∧
    (splitLines ((cleanCodeContentMapped content path).cleanedContent)).length =
      ((cleanCodeContentMapped content path).lineMap).length := by
  rw [cleanCodeContentMapped_eq] at h ⊢
  simp only at h ⊢
  have hfstne :
      (keepLines (splitLines (cleanIntermediate content path)) 0).1 ≠ [] := by
    intro hnil
    apply h
    have hl := keepLines_length (splitLines (cleanIntermediate content path)) 0
    rw [hnil] at hl
    simp only [List.length_nil] at hl
    exact List.length_eq_zero.mp hl.symm
  have hnonl := keepLines_fst_no_nl (splitLines (cleanIntermediate content path)) 0
    (fun l hl => mem_splitLines_no_nl _ l hl)
  rw [splitLines_joinLines _ hfstne hnonl]
  exact ⟨fun l hl => keepLines_fst_nonblank _ 0 l hl, keepLines_length _ 0⟩

/-- Claim C7 counterexample: on the empty content (any path) the cleaner
keeps no line: the cleaned content is empty, splitting into one blank line,
while `lineMap` is empty, so both the no-blank-line property and the
claimed length equality fail on this input. -/
theorem cleanCodeContentMapped_empty_input_violates :
    (cleanCodeContentMapped [] "a.ts".data).cleanedContent = [] ∧
    (splitLines ((cleanCodeContentMapped [] "a.ts".data).cleanedContent)).length = 1 ∧
    ((cleanCodeContentMapped [] "a.ts".data).lineMap).length = 0 ∧
    ¬ ((splitLines ((cleanCodeContentMapped [] "a.ts".data).cleanedContent)).length =
        ((cleanCodeContentMapped [] "a.ts".data).lineMap).length) ∧
    ¬ (∀ l ∈ splitLines ((cleanCodeContentMapped [] "a.ts".data).cleanedContent),
        trimWs l ≠ []) := by decide

theorem cleanCodeContentMapped_no_blank_lines_witness :
    (splitLines ((cleanCodeContentMapped "a".data "a.ts".data).cleanedContent)).length =
      ((cleanCodeContentMapped "a".data "a.ts".data).lineMap).length :=
  (cleanCodeContentMapped_no_blank_lines "a".data "a.ts".data (by decide)).2

theorem cleanCodeContentMapped_lineMap_correct_witness :
    1 ≤ 1 ∧ 1 ≤ (splitLines "a\n/*\nb\nc\n*/\nd".data).length :=
  (cleanCodeContentMapped_lineMap_correct "a\n/*\nb\nc\n*/\nd".data "x.ts".data).2.2.1
    1 (by decide)

/- Retry policy lemmas. -/

theorem reviewWithAIGo_ok_none
    (call : Nat → Except JsError (Option String)) (jitterOf : Nat → Nat)
    (parse : List Char → Except Unit (Option (List AIReviewComment)))
    (f a : Nat) (hc : call a = .ok none) :
    reviewWithAIGo call jitterOf parse f a = (.ok [], 1, []) := by
  rw [reviewWithAIGo, hc]

theorem reviewWithAIGo_ok_some
    (call : Nat → Except JsError (Option String)) (jitterOf : Nat → Nat)
    (parse : List Char → Except Unit (Option (List AIReviewComment)))
    (f a : Nat) (raw : String) (hc : call a = .ok (some raw)) :
    reviewWithAIGo call jitterOf parse f a =
      (match parse (stripCodeFences raw.data) with
       | .ok reviewsField => (.ok (reviewsField.getD []), 1, [])
       | .error _ => (.ok [], 1, [])) := by
  rw [reviewWithAIGo, hc]

theorem reviewWithAIGo_error_zero
    (call : Nat → Except JsError (Option String)) (jitterOf : Nat → Nat)
    (parse : List Char → Except Unit (Option (List AIReviewComment)))
    (a : Nat) (err : JsError) (hc : call a = .error err) :
    reviewWithAIGo call jitterOf parse 0 a = (.error err, 1, []) := by
  rw [reviewWithAIGo, hc]

theorem reviewWithAIGo_error_noretry
    (call : Nat → Except JsError (Option String)) (jitterOf : Nat → Nat)
    (parse : List Char → Except Unit (Option (List AIReviewComment)))
    (f a : Nat) (err : JsError) (hc : call a = .error err)
    (hno : ¬ (isRateLimitErr err = true ∧ a ≤ 3)) :
    reviewWithAIGo call jitterOf parse (f + 1) a = (.error err, 1, []) := by
  rw [reviewWithAIGo, hc]
  exact if_neg hno

theorem reviewWithAIGo_error_retry
    (call : Nat → Except JsError (Option String)) (jitterOf : Nat → Nat)
    (parse : List Char → Except Unit (Option (List AIReviewComment)))
    (f a : Nat) (err : JsError) (hc : call a = .error err)
    (hyes : isRateLimitErr err = true ∧ a ≤ 3) :
    reviewWithAIGo call jitterOf parse (f + 1) a =
      ((reviewWithAIGo call jitterOf parse f (a + 1)).1,
       (reviewWithAIGo call jitterOf parse f (a + 1)).2.1 + 1,
       (a * 2000 + jitterOf a) ::
         (reviewWithAIGo call jitterOf parse f (a + 1)).2.2) := by
  rw [reviewWithAIGo, hc]
  dsimp only
  rw [if_pos hyes]

theorem reviewWithAIGo_fuel_stable
    (call : Nat → Except JsError (Option String)) (jitterOf : Nat → Nat)
    (parse : List Char → Except Unit (Option (List AIReviewComment))) :
    ∀ (k f g a : Nat), 4 - a = k → k ≤ f → k ≤ g →
      reviewWithAIGo call jitterOf parse f a =
        reviewWithAIGo call jitterOf parse g a := by
  intro k
  induction k with
  | zero =>
    intro f g a ha hf hg
    cases hc : call a with
    | ok ro =>
      cases ro with
      | none =>
        rw [reviewWithAIGo_ok_none call jitterOf parse f a hc,
            reviewWithAIGo_ok_none call jitterOf parse g a hc]
      | some raw =>
        rw [reviewWithAIGo_ok_some call jitterOf parse f a raw hc,
            reviewWithAIGo_ok_some call jitterOf parse g a raw hc]
    | error err =>
      have hno : ¬ (isRateLimitErr err = true ∧ a ≤ 3) := fun hcon => by omega
      cases f with
      | zero =>
        cases g with
        | zero => rfl
        | succ g' =>
          rw [reviewWithAIGo_error_zero call jitterOf parse a err hc,
              reviewWithAIGo_error_noretry call jitterOf parse g' a err hc hno]
      | succ f' =>
        cases g with
        | zero =>
          rw [reviewWithAIGo_error_zero call jitterOf parse a err hc,
              reviewWithAIGo_error_noretry call jitterOf parse f' a err hc hno]
        | succ g' =>
          rw [reviewWithAIGo_error_noretry call jitterOf parse f' a err hc hno,
              reviewWithAIGo_error_noretry call jitterOf parse g' a err hc hno]
  | succ k ih =>
    intro f g a ha hf hg
    cases hc : call a with
    | ok ro =>
      cases ro with
      | none =>
        rw [reviewWithAIGo_ok_none call jitterOf parse f a hc,
            reviewWithAIGo_ok_none call jitterOf parse g a hc]
      | some raw =>
        rw [reviewWithAIGo_ok_some call jitterOf parse f a raw hc,
            reviewWithAIGo_ok_some call jitterOf parse g a raw hc]
    | error err =>
      obtain ⟨f', rfl⟩ : ∃ f', f = f' + 1 := ⟨f - 1, by omega⟩
      obtain ⟨g', rfl⟩ : ∃ g', g = g' + 1 := ⟨g - 1, by omega⟩
      by_cases hrl : isRateLimitErr err = true ∧ a ≤ 3
      · rw [reviewWithAIGo_error_retry call jitterOf parse f' a err hc hrl,
            reviewWithAIGo_error_retry call jitterOf parse g' a err hc hrl,
            ih f' g' (a + 1) (by omega) (by omega) (by omega)]
      · rw [reviewWithAIGo_error_noretry call jitterOf parse f' a err hc hrl,
            reviewWithAIGo_error_noretry call jitterOf parse g' a err hc hrl]

theorem reviewWithAIGo_calls_le
    (call : Nat → Except JsError (Option String)) (jitterOf : Nat → Nat)
    (parse : List Char → Except Unit (Option (List AIReviewComment))) :
    ∀ (f a : Nat), (reviewWithAIGo call jitterOf parse f a).2.1 ≤ f + 1 := by
  intro f
  induction f with
  | zero =>
    intro a
    cases hc : call a with
    | ok ro =>
      cases ro with
      | none => rw [reviewWithAIGo_ok_none call jitterOf parse 0 a hc]
      | some raw =>
        rw [reviewWithAIGo_ok_some call jitterOf parse 0 a raw hc]
        cases parse (stripCodeFences raw.data) <;> simp
    | error err => rw [reviewWithAIGo_error_zero call jitterOf parse a err hc]
  | succ f' ih =>
    intro a
    cases hc : call a with
    | ok ro =>
      cases ro with
      | none =>
        rw [reviewWithAIGo_ok_none call jitterOf parse (f' + 1) a hc]
        show (1 : Nat) ≤ f' + 1 + 1
        omega
      | some raw =>
        rw [reviewWithAIGo_ok_some call jitterOf parse (f' + 1) a raw hc]
        cases parse (stripCodeFences raw.data) <;> simp
    | error err =>
      by_cases hrl : isRateLimitErr err = true ∧ a ≤ 3
      · rw [reviewWithAIGo_error_retry call jitterOf parse f' a err hc hrl]
        have hih := ih (a + 1)
        simp only []
        omega
      · rw [reviewWithAIGo_error_noretry call jitterOf parse f' a err hc hrl]
        show (1 : Nat) ≤ f' + 1 + 1
        omega

/-- Claim C2: in `reviewWithAI`, a provider error that is not a rate-limit
signal is re-raised immediately (one call, no wait); a rate-limit error
with `attempt <= 3` waits `attempt * 2000` ms plus a jitter below 1000 ms
and retries with `attempt + 1`; once `attempt` exceeds 3 the rate-limit
error is re-raised; and an invocation starting at `attempt = 1` makes at
most 4 provider calls. -/
theorem reviewWithAI_retry_policy
    (call : Nat → Except JsError (Option String)) (jitterOf : Nat → Nat)
    (parse : List Char → Except Unit (Option (List AIReviewComment)))
    (hjit : ∀ a, jitterOf a < 1000) :
    (∀ (attempt : Nat) (err : JsError), call attempt = .error err →
        isRateLimitErr err = false →
        reviewWithAI call jitterOf parse attempt = (.error err, 1, [])) ∧
    (∀ (attempt : Nat) (err : JsError), call attempt = .error err →
        isRateLimitErr err = true → 1 ≤ attempt → attempt ≤ 3 →
        reviewWithAI call jitterOf parse attempt =
          ((reviewWithAI call jitterOf parse (attempt + 1)).1,
           (reviewWithAI call jitterOf parse (attempt + 1)).2.1 + 1,
           (attempt * 2000 + jitterOf attempt) ::
             (reviewWithAI call jitterOf parse (attempt + 1)).2.2) ∧
          jitterOf attempt < 1000) ∧
    (∀ (attempt : Nat) (err : JsError), call attempt = .error err →
        3 < attempt →
        reviewWithAI call jitterOf parse attempt = (.error err, 1, [])) ∧
    (reviewWithAI call jitterOf parse 1).2.1 ≤ 4 := by
  refine ⟨?_, ?_, ?_, reviewWithAIGo_calls_le call jitterOf parse 3 1⟩
  · intro a err hc hrl
    have hno : ¬ (isRateLimitErr err = true ∧ a ≤ 3) := by
      intro hcon
      rw [hrl] at hcon
      exact Bool.false_ne_true hcon.1
    exact reviewWithAIGo_error_noretry call jitterOf parse 2 a err hc hno
  · intro a err hc hrl h1 h3
    refine ⟨?_, hjit a⟩
    unfold reviewWithAI
    rw [show (3 : Nat) = 2 + 1 from rfl,
        reviewWithAIGo_error_retry call jitterOf parse 2 a err hc ⟨hrl, h3⟩,
        reviewWithAIGo_fuel_stable call jitterOf parse (4 - (a + 1)) 2 3 (a + 1)
          rfl (by omega) (by omega)]
  · intro a err hc h3
    have hno : ¬ (isRateLimitErr err = true ∧ a ≤ 3) := fun hcon => by omega
    exact reviewWithAIGo_error_noretry call jitterOf parse 2 a err hc hno

theorem reviewWithAI_retry_policy_witness :
    reviewWithAI (fun _ => .error ⟨some 429, none, none⟩) (fun _ => 0)
        (fun _ => .error ()) 4 = (.error ⟨some 429, none, none⟩, 1, []) :=
  (reviewWithAI_retry_policy (fun _ => .error ⟨some 429, none, none⟩) (fun _ => 0)
    (fun _ => .error ()) (fun _ => by norm_num)).2.2.1 4 ⟨some 429, none, none⟩
    rfl (by norm_num)

/-- Claim C6: `reviewWithAI` strips Markdown code fences from the raw
response before JSON parsing (a response wrapped in three-backtick json
fences is stripped to its payload, which is then parsed); if parsing the
stripped response fails, the invocation returns the empty comment list
(one call, no retry, no error escapes), so the file contributes zero
comments; if parsing succeeds, the parsed reviews are returned. -/
theorem reviewWithAI_fence_and_parse
    (call : Nat → Except JsError (Option String)) (jitterOf : Nat → Nat)
    (parse : List Char → Except Unit (Option (List AIReviewComment))) :
    (∀ (attempt : Nat) (raw : String), call attempt = .ok (some raw) →
        parse (stripCodeFences raw.data) = .error () →
        reviewWithAI call jitterOf parse attempt = (.ok [], 1, [])) ∧
    (∀ (attempt : Nat) (raw : String) (revs : List AIReviewComment),
        call attempt = .ok (some raw) →
        parse (stripCodeFences raw.data) = .ok (some revs) →
        reviewWithAI call jitterOf parse attempt = (.ok revs, 1, [])) ∧
    stripCodeFences ("```json\n\x7b\"reviews\": []\x7d\n```".data) =
      "\x7b\"reviews\": []\x7d".data := by
  refine ⟨?_, ?_, by decide⟩
  · intro a raw hc hp
    unfold reviewWithAI
    rw [reviewWithAIGo_ok_some call jitterOf parse 3 a raw hc, hp]
  · intro a raw revs hc hp
    unfold reviewWithAI
    rw [reviewWithAIGo_ok_some call jitterOf parse 3 a raw hc, hp]
    rfl

theorem reviewWithAI_fence_and_parse_witness :
    reviewWithAI (fun _ => .ok (some "not json")) (fun _ => 0)
        (fun _ => .error ()) 1 = (.ok [], 1, []) :=
  (reviewWithAI_fence_and_parse (fun _ => .ok (some "not json")) (fun _ => 0)
    (fun _ => .error ())).1 1 "not json" rfl rfl

/- Orchestrator lemmas. -/

theorem nonBlankLineCount_le (s : List Char) :
    nonBlankLineCount s ≤ (splitLines s).length :=
  List.length_filter_le _ _

theorem executeReview_run (e : OrchEnv)
    (hv : e.validateWebhook = true) (hp : e.shouldProcessPR = true)
    (hne : e.changedFiles ≠ []) :
    executeReview e =
      { lockAttempted := true, fetchedFiles := true,
        aiCalls := e.changedFiles.filterMap (fileAICall e),
        candidates := e.changedFiles.flatMap (fileContrib e (fetchGuidelines e)),
        postedComments := (sortComments (e.changedFiles.flatMap
          (fileContrib e (fetchGuidelines e)))).take maxReviewComments,
        finalStatus := some
          (if e.changedFiles.any (fileRedFlagged e) then
            ReviewStatus.changes_requested
           else if e.changedFiles.any (fileHasAIIssues e (fetchGuidelines e)) then
            ReviewStatus.commented
           else ReviewStatus.approved) } := by
  unfold executeReview
  rw [hv, hp]
  simp only [Bool.not_true, Bool.false_eq_true, if_false]
  rw [if_neg (fun hemp => hne (List.isEmpty_iff.mp hemp))]
  rw [foldl_processFile_eq]
  simp [LoopState.start]

theorem fileContrib_path (e : OrchEnv) (g : Option String) (f : FileChange) :
    ∀ c ∈ fileContrib e g f, c.filePath = f.path := by
  intro c hc
  unfold fileContrib at hc
  by_cases hig : e.shouldIgnoreFile f.path
  · simp [hig] at hc
  · simp only [hig, Bool.false_eq_true, if_false] at hc
    cases hfc : e.getFileContent f.path f.commitId with
    | error msg => rw [hfc] at hc; simp at hc
    | ok content =>
      rw [hfc] at hc
      by_cases hbig : (cleanedLineCount content.data f.path.data > 1000 &&
          !hasLowerSuffix f.path.data ".md".data) = true
      · simp only [hbig, if_true, List.mem_singleton] at hc
        rw [hc]
        rfl
      · simp only [hbig, Bool.false_eq_true, if_false] at hc
        cases hr : e.reviewFile f.path content g with
        | error msg => rw [hr] at hc; simp at hc
        | ok revs =>
          rw [hr] at hc
          simp only [List.mem_map] at hc
          obtain ⟨r, _, hrc⟩ := hc
          rw [← hrc]

theorem fileAICall_eq_some (e : OrchEnv) (f : FileChange) (p : String) :
    fileAICall e f = some p → p = f.path := by
  intro h
  unfold fileAICall at h
  by_cases hig : e.shouldIgnoreFile f.path
  · simp [hig] at h
  · simp only [hig, Bool.false_eq_true, if_false] at h
    cases hfc : e.getFileContent f.path f.commitId with
    | error msg => rw [hfc] at h; simp at h
    | ok content =>
      rw [hfc] at h
      by_cases hbig : (cleanedLineCount content.data f.path.data > 1000 &&
          !hasLowerSuffix f.path.data ".md".data) = true
      · simp [hbig] at h
      · simp only [hbig, Bool.false_eq_true, if_false, Option.some.injEq] at h
        exact h.symm

theorem flatMap_filter_path_eq (e : OrchEnv) (g : Option String)
    (files : List FileChange) (f : FileChange) (hmem : f ∈ files)
    (hnodup : (files.map FileChange.path).Nodup) :
    (files.flatMap (fileContrib e g)).filter (fun c => c.filePath = f.path) =
      fileContrib e g f := by
  induction files with
  | nil => cases hmem
  | cons hd tl ih =>
    simp only [List.flatMap_cons, List.filter_append]
    simp only [List.map_cons, List.nodup_cons] at hnodup
    rcases List.mem_cons.mp hmem with heq | hmemtl
    · subst heq
      have htl : (tl.flatMap (fileContrib e g)).filter
          (fun c => decide (c.filePath = f.path)) = [] := by
        rw [List.filter_eq_nil_iff]
        intro c hc
        obtain ⟨f2, hf2, hcf2⟩ := List.mem_flatMap.mp hc
        have hpath := fileContrib_path e g f2 c hcf2
        simp only [decide_eq_true_eq]
        intro hcp
        apply hnodup.1
        have hfp : f.path = f2.path := by rw [← hcp, hpath]
        rw [hfp]
        exact List.mem_map_of_mem FileChange.path hf2
      rw [htl, List.append_nil, List.filter_eq_self.mpr]
      intro c hc
      simp [fileContrib_path e g f c hc]
    · have hne : hd.path ≠ f.path := by
        intro hpe
        apply hnodup.1
        rw [hpe]
        exact List.mem_map_of_mem FileChange.path hmemtl
      have hhd : (fileContrib e g hd).filter
          (fun c => decide (c.filePath = f.path)) = [] := by
        rw [List.filter_eq_nil_iff]
        intro c hc
        have hpath := fileContrib_path e g hd c hc
        simp only [decide_eq_true_eq]
        intro hcp
        exact hne (by rw [← hpath, hcp])
      rw [hhd, List.nil_append]
      exact ih hmemtl hnodup.2

/-- Claim C9: when webhook validation fails, or validation passes but the
PR should not be processed, the run stops with no side effects on the code
host: the lock is not attempted, the changed files are not fetched, no
comment is posted, and no final status is set. -/
theorem executeReview_early_exit (e : OrchEnv)
    (h : e.validateWebhook = false ∨
         (e.validateWebhook = true ∧ e.shouldProcessPR = false)) :
    executeReview e = noEffects ∧
    (executeReview e).lockAttempted = false ∧
    (executeReview e).fetchedFiles = false ∧
    (executeReview e).aiCalls = [] ∧
    (executeReview e).postedComments = [] ∧
    (executeReview e).finalStatus = none := by
  have hnoe : executeReview e = noEffects := by
    unfold executeReview
    rcases h with h | ⟨hv, hp⟩
    · simp [h]
    · simp [hv, hp]
  rw [hnoe]
  exact ⟨rfl, rfl, rfl, rfl, rfl, rfl⟩

theorem executeReview_early_exit_witness :
    executeReview
        { validateWebhook := false, shouldProcessPR := true, lockPR := .ok (),
          changedFiles := [], guidelinesPath := none,
          getFileContent := fun _ _ => .ok "",
          reviewFile := fun _ _ _ => .ok [],
          shouldIgnoreFile := fun _ => false } = noEffects :=
  (executeReview_early_exit _ (Or.inl rfl)).1

/-- Claim C4: a run that reaches the per-file loop ends with final status
`changes_requested` when some file was red-flagged, else `commented` when
some AI review returned at least one comment, else `approved`. -/
theorem executeReview_final_status (e : OrchEnv)
    (hv : e.validateWebhook = true) (hp : e.shouldProcessPR = true)
    (hne : e.changedFiles ≠ []) :
    (executeReview e).finalStatus = some
      (if e.changedFiles.any (fileRedFlagged e) then ReviewStatus.changes_requested
       else if e.changedFiles.any (fileHasAIIssues e (fetchGuidelines e)) then
         ReviewStatus.commented
       else ReviewStatus.approved) := by
  rw [executeReview_run e hv hp hne]

theorem executeReview_final_status_witness :
    (executeReview
        { validateWebhook := true, shouldProcessPR := true, lockPR := .ok (),
          changedFiles := [⟨"src/a.ts", "c1"⟩], guidelinesPath := none,
          getFileContent := fun _ _ => .ok "const x = 1;",
          reviewFile := fun _ _ _ => .ok [],
          shouldIgnoreFile := fun _ => false }).finalStatus =
      some ReviewStatus.approved := by
  rw [executeReview_final_status _ rfl rfl (by decide)]
  decide

/-- Claim C5: a non-ignored changed file whose fetched content cleans to
more than 1000 non-blank lines and whose path is not Markdown receives
exactly one synthetic critical red-flag comment among the collected
candidates, no AI review call is made for it, and the final status of the
run is `changes_requested`. -/
theorem executeReview_red_flag (e : OrchEnv) (f : FileChange) (content : String)
    (hv : e.validateWebhook = true) (hp : e.shouldProcessPR = true)
    (hmem : f ∈ e.changedFiles)
    (hnodup : (e.changedFiles.map FileChange.path).Nodup)
    (hig : e.shouldIgnoreFile f.path = false)
    (hfc : e.getFileContent f.path f.commitId = .ok content)
    (hbig : nonBlankLineCount (cleanCodeContent content.data f.path.data) > 1000)
    (hmd : hasLowerSuffix f.path.data ".md".data = false) :
    ((executeReview e).candidates.filter (fun c => c.filePath = f.path) =
        [redFlagComment f.path]) ∧
    f.path ∉ (executeReview e).aiCalls ∧
    (executeReview e).finalStatus = some ReviewStatus.changes_requested := by
  have hne : e.changedFiles ≠ [] := by
    intro hnil
    rw [hnil] at hmem
    cases hmem
  have hcount : cleanedLineCount content.data f.path.data > 1000 :=
    lt_of_lt_of_le hbig (nonBlankLineCount_le _)
  have hbigcond : (cleanedLineCount content.data f.path.data > 1000 &&
      !hasLowerSuffix f.path.data ".md".data) = true := by
    simp [hcount, hmd]
  have hcontrib : fileContrib e (fetchGuidelines e) f = [redFlagComment f.path] := by
    unfold fileContrib
    rw [hig, hfc]
    simp [hbigcond]
  have hrf : fileRedFlagged e f = true := by
    unfold fileRedFlagged
    rw [hig, hfc]
    simp [hcount, hmd]
  rw [executeReview_run e hv hp hne]
  refine ⟨?_, ?_, ?_⟩
  · rw [flatMap_filter_path_eq e (fetchGuidelines e) e.changedFiles f hmem hnodup,
        hcontrib]
  · intro hmem2
    simp only [List.mem_filterMap] at hmem2
    obtain ⟨f2, hf2, hcall⟩ := hmem2
    have hfp : f.path = f2.path := fileAICall_eq_some e f2 f.path hcall
    have hf2f : f2 = f :=
      List.inj_on_of_nodup_map hnodup hf2 hmem hfp.symm
    rw [hf2f] at hcall
    unfold fileAICall at hcall
    rw [hig, hfc] at hcall
    simp [hbigcond] at hcall
  · simp only [List.any_eq_true]
    rw [if_pos ⟨f, hmem, hrf⟩]


/- Evaluation lemmas for the oversized-file witness content. -/

theorem aLines_cons (n : Nat) : ∃ t, aLines n = 'a' :: t := by
  cases n with
  | zero => exact ⟨[], rfl⟩
  | succ m => exact ⟨'\n' :: aLines m, rfl⟩

theorem mem_aLines (n : Nat) (c : Char) (h : c ∈ aLines n) :
    c = 'a' ∨ c = '\n' := by
  induction n with
  | zero => simp [aLines] at h; simp [h]
  | succ m ih =>
    rw [aLines] at h
    rcases List.mem_cons.mp h with h | h
    · exact Or.inl h
    · rcases List.mem_cons.mp h with h | h
      · exact Or.inr h
      · exact ih h

theorem splitFirst_head_not_mem (d : Char) (needle s : List Char)
    (h : d ∉ s) : splitFirst (d :: needle) s = none := by
  induction s with
  | nil => rfl
  | cons c rest ih =>
    have hdc : d ≠ c := fun he => h (by simp [he])
    have hrest : d ∉ rest := fun hm => h (by simp [hm])
    rw [splitFirst]
    have hpre : (d :: needle).isPrefixOf (c :: rest) = false := by
      simp [List.isPrefixOf, hdc]
    rw [hpre]
    simp only [Bool.false_eq_true, if_false]
    rw [ih hrest]

theorem replaceBlocks_no_open (opn close : List Char)
    (repl : List Char → List Char) (s : List Char)
    (h : splitFirst opn s = none) :
    replaceBlocks opn close repl s = s := by
  rw [replaceBlocks, replaceBlocksGo, h]

theorem splitLines_aLines (n : Nat) :
    splitLines (aLines n) = List.replicate (n + 1) ['a'] := by
  induction n with
  | zero => rfl
  | succ m ih =>
    rw [aLines]
    have h1 : splitLines ('a' :: '\n' :: aLines m) =
        ['a'] :: splitLines (aLines m) := by
      have := splitLines_append_nl ['a'] (aLines m) (by simp)
      simpa using this
    rw [h1, ih]
    rfl

theorem joinLines_replicate_a (n : Nat) :
    joinLines (List.replicate (n + 1) ['a']) = aLines n := by
  induction n with
  | zero => rfl
  | succ m ih =>
    have h2 : List.replicate (m + 1 + 1) (['a'] : List Char) =
        ['a'] :: ['a'] :: List.replicate m ['a'] := rfl
    have h3 : ∀ (ms : List (List Char)) (l0 : List Char) (l1 : List Char),
        joinLines (l0 :: l1 :: ms) = l0 ++ '\n' :: joinLines (l1 :: ms) :=
      fun ms l0 l1 => rfl
    rw [h2, h3]
    have h4 : (['a'] :: List.replicate m (['a'] : List Char)) =
        List.replicate (m + 1) ['a'] := rfl
    rw [h4, ih]
    rfl

theorem length_aLines (n : Nat) : (aLines n).length = 2 * n + 1 := by
  induction n with
  | zero => rfl
  | succ m ih =>
    rw [aLines]
    simp only [List.length_cons, ih]
    omega

theorem collapseNewlinesGo_aLines (n : Nat) :
    ∀ f : Nat, 2 * n + 1 ≤ f →
      collapseNewlinesGo f (aLines n) = aLines n := by
  induction n with
  | zero =>
    intro f hf
    obtain ⟨f', rfl⟩ : ∃ f', f = f' + 1 := ⟨f - 1, by omega⟩
    show collapseNewlinesGo (f' + 1) ['a'] = ['a']
    rw [collapseNewlinesGo]
    have ha : ('a' = '\n') = False := by simp
    rw [if_neg (by simp)]
    cases f' <;> rfl
  | succ m ih =>
    intro f hf
    obtain ⟨f', rfl⟩ : ∃ f', f = f' + 1 := ⟨f - 1, by omega⟩
    obtain ⟨f'', rfl⟩ : ∃ f'', f' = f'' + 1 := ⟨f' - 1, by omega⟩
    rw [aLines]
    rw [collapseNewlinesGo, if_neg (by simp)]
    rw [collapseNewlinesGo, if_pos rfl]
    obtain ⟨t, ht⟩ := aLines_cons m
    have hrun : (aLines m).takeWhile jsWhitespace = [] := by
      rw [ht]
      have : jsWhitespace 'a' = false := by decide
      simp [List.takeWhile_cons, this]
    rw [hrun]
    simp only [List.count_nil]
    rw [if_neg (by omega)]
    rw [ih f'' (by omega)]

theorem collapseNewlines_aLines (n : Nat) :
    collapseNewlines (aLines n) = aLines n := by
  rw [collapseNewlines]
  exact collapseNewlinesGo_aLines n ((aLines n).length + 1)
    (by rw [length_aLines]; omega)

theorem reverse_aLines_cons (n : Nat) : ∃ t, (aLines n).reverse = 'a' :: t := by
  induction n with
  | zero => exact ⟨[], rfl⟩
  | succ m ih =>
    obtain ⟨t, ht⟩ := ih
    refine ⟨t ++ ['\n', 'a'], ?_⟩
    rw [aLines]
    simp [ht]

theorem trimWs_aLines (n : Nat) : trimWs (aLines n) = aLines n := by
  unfold trimWs
  obtain ⟨t, ht⟩ := aLines_cons n
  obtain ⟨u, hu⟩ := reverse_aLines_cons n
  have hdrop1 : (aLines n).dropWhile jsWhitespace = aLines n := by
    rw [ht]
    simp [List.dropWhile_cons, show jsWhitespace 'a' = false from by decide]
  rw [hdrop1, hu]
  simp only [List.dropWhile_cons, show jsWhitespace 'a' = false from by decide,
    Bool.false_eq_true, if_false]
  rw [← hu, List.reverse_reverse]

theorem cleanCodeContent_aLines (n : Nat) (path : List Char)
    (hpy : hasLowerSuffix path ".py".data = false) :
    cleanCodeContent (aLines n) path = aLines n := by
  have hnoslash : '/' ∉ aLines n := by
    intro hm
    rcases mem_aLines n '/' hm with h | h <;> simp at h
  have hpass : pyAwareBlockPasses (fun _ => []) (aLines n) path = aLines n := by
    unfold pyAwareBlockPasses
    rw [hpy]
    simp only [Bool.false_eq_true, if_false]
    exact replaceBlocks_no_open _ _ _ _
      (splitFirst_head_not_mem '/' ['*'] (aLines n) hnoslash)
  show trimWs (collapseNewlines (joinLines
      ((splitLines (pyAwareBlockPasses (fun _ => []) (aLines n) path)).map
        trimEndTabsSpaces))) = aLines n
  rw [hpass, splitLines_aLines]
  have hmap : (List.replicate (n + 1) (['a'] : List Char)).map trimEndTabsSpaces =
      List.replicate (n + 1) ['a'] := by
    rw [List.map_replicate]
    rfl
  rw [hmap, joinLines_replicate_a, collapseNewlines_aLines, trimWs_aLines]

theorem nonBlankLineCount_aLines (n : Nat) :
    nonBlankLineCount (aLines n) = n + 1 := by
  unfold nonBlankLineCount
  rw [splitLines_aLines]
  rw [List.filter_eq_self.mpr]
  · exact List.length_replicate ..
  · intro l hl
    rw [List.eq_of_mem_replicate hl]
    decide

theorem executeReview_red_flag_witness :
    (executeReview
        { validateWebhook := true, shouldProcessPR := true, lockPR := .ok (),
          changedFiles := [⟨"src/big.ts", "c1"⟩], guidelinesPath := none,
          getFileContent := fun _ _ => .ok ⟨aLines 1000⟩,
          reviewFile := fun _ _ _ => .ok [],
          shouldIgnoreFile := fun _ => false }).finalStatus =
      some ReviewStatus.changes_requested :=
  (executeReview_red_flag _ ⟨"src/big.ts", "c1"⟩ ⟨aLines 1000⟩ rfl rfl
    (by decide) (by decide) rfl rfl
    (by
      show nonBlankLineCount (cleanCodeContent (aLines 1000) "src/big.ts".data) > 1000
      rw [cleanCodeContent_aLines 1000 "src/big.ts".data (by decide),
        nonBlankLineCount_aLines]
      omega)
    (by decide)).2.2

/-- Claim C8: a thrown per-file fetch or review error is absorbed at the
per-file boundary: that file contributes no comments, every other file
contributes exactly what it would contribute anyway, and the run still
aggregates, posts the sorted top comments, and sets a final status — no
per-file exception aborts the run. -/
theorem executeReview_per_file_isolation (e : OrchEnv) (f : FileChange)
    (hv : e.validateWebhook = true) (hp : e.shouldProcessPR = true)
    (hmem : f ∈ e.changedFiles)
    (hnodup : (e.changedFiles.map FileChange.path).Nodup)
    (hig : e.shouldIgnoreFile f.path = false)
    (herr : (∃ msg, e.getFileContent f.path f.commitId = .error msg) ∨
        (∃ content msg, e.getFileContent f.path f.commitId = .ok content ∧
          (cleanedLineCount content.data f.path.data > 1000 &&
            !hasLowerSuffix f.path.data ".md".data) = false ∧
          e.reviewFile f.path content (fetchGuidelines e) = .error msg)) :
    fileContrib e (fetchGuidelines e) f = [] ∧
    (executeReview e).candidates.filter (fun c => c.filePath = f.path) = [] ∧
    (executeReview e).candidates =
      e.changedFiles.flatMap (fileContrib e (fetchGuidelines e)) ∧
    (executeReview e).postedComments =
      (sortComments (executeReview e).candidates).take maxReviewComments ∧
    ((executeReview e).finalStatus).isSome = true := by
  have hne : e.changedFiles ≠ [] := by
    intro hnil
    rw [hnil] at hmem
    cases hmem
  have hcontrib : fileContrib e (fetchGuidelines e) f = [] := by
    unfold fileContrib
    rw [hig]
    simp only [Bool.false_eq_true, if_false]
    rcases herr with ⟨msg, hfc⟩ | ⟨content, msg, hfc, hsmall, hrev⟩
    · rw [hfc]
    · rw [hfc]
      dsimp only
      rw [show (cleanedLineCount content.data f.path.data > 1000 &&
          !hasLowerSuffix f.path.data ['.', 'm', 'd']) = false from hsmall]
      simp only [Bool.false_eq_true, if_false]
      rw [hrev]
  rw [executeReview_run e hv hp hne]
  refine ⟨hcontrib, ?_, rfl, rfl, rfl⟩
  rw [flatMap_filter_path_eq e (fetchGuidelines e) e.changedFiles f hmem hnodup,
    hcontrib]

theorem executeReview_per_file_isolation_witness :
    ((executeReview
        { validateWebhook := true, shouldProcessPR := true, lockPR := .ok (),
          changedFiles := [⟨"src/a.ts", "c1"⟩], guidelinesPath := none,
          getFileContent := fun _ _ => .error "fetch failed",
          reviewFile := fun _ _ _ => .ok [],
          shouldIgnoreFile := fun _ => false }).finalStatus).isSome = true :=
  (executeReview_per_file_isolation _ ⟨"src/a.ts", "c1"⟩ rfl rfl (by decide)
    (by decide) rfl (Or.inl ⟨"fetch failed", rfl⟩)).2.2.2.2

/-- Claim C3: the orchestrator stable-sorts the collected comments by
severity priority (critical 0 < major 1 < minor 2 < unknown 3) and posts
only the first 15: the sorted list is a permutation of the candidates in
priority order, ties keep their original relative order (the subsequence of
each priority class is unchanged), the posted list is the 15-element prefix
of the sorted list (so with 20 candidates exactly 15 are posted, the 15
best-ranked), and on severities [minor, critical, major, critical] the sort
yields [critical, critical, major, minor] with the two critical comments in
their original order. -/
theorem aggregation_ordering_and_budget :
    (∀ cs : List CandidateComment, List.Perm (sortComments cs) cs) ∧
    (∀ cs : List CandidateComment,
        (sortComments cs).Pairwise (fun a b => severityLe a b)) ∧
    (∀ (cs : List CandidateComment) (k : Nat),
        (sortComments cs).filter (fun c => severityPriority c.severity == k) =
          cs.filter (fun c => severityPriority c.severity == k)) ∧
    (∀ cs : List CandidateComment,
        ((sortComments cs).take maxReviewComments).length =
          min maxReviewComments cs.length) ∧
    (∀ (cs : List CandidateComment) (x y : CandidateComment),
        x ∈ (sortComments cs).take maxReviewComments →
        y ∈ (sortComments cs).drop maxReviewComments →
        severityPriority x.severity ≤ severityPriority y.severity) ∧
    (∀ e : OrchEnv, e.validateWebhook = true → e.shouldProcessPR = true →
        e.changedFiles ≠ [] →
        (executeReview e).postedComments =
          (sortComments (executeReview e).candidates).take maxReviewComments) ∧
    sortComments
        [⟨"f", none, none, "minor", "m"⟩, ⟨"f", none, none, "critical", "c1"⟩,
         ⟨"f", none, none, "major", "j"⟩, ⟨"f", none, none, "critical", "c2"⟩] =
      [⟨"f", none, none, "critical", "c1"⟩, ⟨"f", none, none, "critical", "c2"⟩,
       ⟨"f", none, none, "major", "j"⟩, ⟨"f", none, none, "minor", "m"⟩] := by
  refine ⟨sortComments_perm, sortComments_sorted, sortComments_filter_priority,
    ?_, ?_, ?_, ?_⟩
  · intro cs
    simp [sortComments]
  · intro cs x y hx hy
    have hs := sortComments_sorted cs
    have hsplit := List.pairwise_append.mp
      (by rw [List.take_append_drop]; exact hs :
        ((sortComments cs).take maxReviewComments ++
          (sortComments cs).drop maxReviewComments).Pairwise
            (fun a b => severityLe a b))
    have hle := hsplit.2.2 x hx y hy
    simpa [severityLe, decide_eq_true_eq] using hle
  · intro e hv hp hne
    rw [executeReview_run e hv hp hne]
  · simp [sortComments, List.mergeSort, List.merge, severityLe, severityPriority]

theorem aggregation_ordering_and_budget_witness :
    (executeReview
        { validateWebhook := true, shouldProcessPR := true, lockPR := .ok (),
          changedFiles := [⟨"src/a.ts", "c1"⟩], guidelinesPath := none,
          getFileContent := fun _ _ => .ok "x",
          reviewFile := fun _ _ _ => .ok [],
          shouldIgnoreFile := fun _ => false }).postedComments =
      (sortComments (executeReview
        { validateWebhook := true, shouldProcessPR := true, lockPR := .ok (),
          changedFiles := [⟨"src/a.ts", "c1"⟩], guidelinesPath := none,
          getFileContent := fun _ _ => .ok "x",
          reviewFile := fun _ _ _ => .ok [],
          shouldIgnoreFile := fun _ => false }).candidates).take maxReviewComments :=
  aggregation_ordering_and_budget.2.2.2.2.2.1 _ rfl rfl (by decide)

/-- Claim C10: every line-anchored comment built by either adapter has
start line at most end line: the Azure DevOps thread context uses the
supplied start line only when it is strictly below the (truthy) end line
and otherwise anchors both ends at the end line, falling back to a
file-level context when the end line is absent; the GitHub review comment
requires a positive end line, carries a start_line only when it is strictly
below that line, and posts a file-level comment when the end line is
absent. -/
theorem postComment_line_anchoring :
    (∀ (fp : Option String) (s e : Option Int) (p : String) (sL eL : Int),
        postReviewThreadContext fp s e = .ranged p sL eL →
        sL ≤ eL ∧ (sL = eL ∨ (s = some sL ∧ sL < eL)) ∧ e = some eL) ∧
    (∀ (fp : String) (s : Option Int),
        postReviewThreadContext (some fp) s none =
          if fp = "" then .noContext else .fileOnly fp) ∧
    (∀ (path : String) (s e : Option Int) (line sL : Int),
        postCommentPrimary path s e = .lineReview path line (some sL) →
        sL < line ∧ s = some sL) ∧
    (∀ (path : String) (s e : Option Int) (line : Int) (so : Option Int),
        postCommentPrimary path s e = .lineReview path line so →
        0 < line ∧ e = some line) ∧
    (∀ (path : String) (s : Option Int),
        postCommentPrimary path s none = .fileLevel path) := by
  refine ⟨?_, ?_, ?_, ?_, ?_⟩
  · intro fp s e p sL eL h
    cases fp with
    | none => simp [postReviewThreadContext] at h
    | some fp0 =>
      unfold postReviewThreadContext at h
      dsimp only at h
      by_cases hfp : fp0 = ""
      · rw [if_pos hfp] at h
        simp at h
      · rw [if_neg hfp] at h
        cases e with
        | none => simp at h
        | some e0 =>
          dsimp only at h
          by_cases he : e0 ≠ 0
          · rw [if_pos he] at h
            simp only [AzdoThreadContext.ranged.injEq] at h
            obtain ⟨h1, h2, h3⟩ := h
            subst h2
            subst h3
            unfold azdoActualStartLine
            cases s with
            | none => exact ⟨le_refl _, Or.inl rfl, rfl⟩
            | some s0 =>
              dsimp only
              by_cases hs : s0 ≠ 0 ∧ s0 < e0
              · rw [if_pos hs]
                exact ⟨le_of_lt hs.2, Or.inr ⟨rfl, hs.2⟩, rfl⟩
              · rw [if_neg hs]
                exact ⟨le_refl _, Or.inl rfl, rfl⟩
          · rw [if_neg he] at h
            simp at h
  · intro fp s
    by_cases hfp : fp = ""
    · simp [postReviewThreadContext, hfp]
    · simp [postReviewThreadContext, hfp]
  · intro path s e line sL h
    unfold postCommentPrimary at h
    cases e with
    | none => simp at h
    | some e0 =>
      dsimp only at h
      by_cases he : e0 ≠ 0 ∧ e0 > 0
      · rw [if_pos he] at h
        simp only [GhPrimaryComment.lineReview.injEq] at h
        obtain ⟨hp1, hl, hso⟩ := h
        subst hl
        cases s with
        | none => simp at hso
        | some s0 =>
          dsimp only at hso
          by_cases hs : s0 ≠ 0 ∧ s0 < e0
          · rw [if_pos hs] at hso
            simp only [Option.some.injEq] at hso
            subst hso
            exact ⟨hs.2, rfl⟩
          · rw [if_neg hs] at hso
            simp at hso
      · rw [if_neg he] at h
        simp at h
  · intro path s e line so h
    unfold postCommentPrimary at h
    cases e with
    | none => simp at h
    | some e0 =>
      dsimp only at h
      by_cases he : e0 ≠ 0 ∧ e0 > 0
      · rw [if_pos he] at h
        simp only [GhPrimaryComment.lineReview.injEq] at h
        obtain ⟨hp1, hl, hso⟩ := h
        subst hl
        exact ⟨he.2, rfl⟩
      · rw [if_neg he] at h
        simp at h
  · intro path s
    rfl

theorem postComment_line_anchoring_witness :
    (3 : Int) ≤ 3 ∧
      ((3 : Int) = 3 ∨ (some (7 : Int) = some (3 : Int) ∧ (3 : Int) < 3)) ∧
      (some (3 : Int) = some (3 : Int)) :=
  postComment_line_anchoring.1 (some "f.ts") (some 7) (some 3) "f.ts" 3 3
    (by decide)
